import Mathlib

/-!
Shallow embedding of the ipclog FIFO transport (src/ipclog/ipc_server.py):
the channel helpers (`pipe_max_size`, `ensure_fifo`), the client-side writer
(`IPClient`: blocking write, nonblocking chunking/caching write with its drain
loop), and the reader/dispatcher loop run by `IPCServer._run`.

Strings are modelled as `List Char` (one `Char` per Python character), machine
file descriptors by an abstract open/closed status, and the OS environment
(pipe sizes, write outcomes, filesystem entries) by explicit parameters.
-/

/-- Python `str.isspace` restricted to code points below U+2000 (TAB..CR,
FS..US, SPACE, NEL, NBSP); every character appearing in this development is in
that range. -/
def pyIsSpace (c : Char) : Bool :=
  let n := c.toNat
  (9 ≤ n && n ≤ 13) || (28 ≤ n && n ≤ 32) || n == 133 || n == 160

/-- Python `str.strip()` with no arguments: remove leading and trailing
whitespace. -/
def pyStrip (s : List Char) : List Char :=
  ((s.dropWhile pyIsSpace).reverse.dropWhile pyIsSpace).reverse

/-- Python `str.replace` with single-character arguments (used by the source
for `self._no.replace("#", "&")`). -/
def pyReplace (s : List Char) (a b : Char) : List Char :=
  s.map (fun c => if c = a then b else c)

/-- Python text-mode newline translation on write: with `newline=sep`, each
`"\n"` written is translated to `sep`; with `newline` equal to `""` or `"\n"`
no translation takes place. -/
def pyNlTranslate (sep : List Char) (s : List Char) : List Char :=
  if sep = [] ∨ sep = ['\n'] then s
  else s.foldr (fun c acc => if c = '\n' then sep ++ acc else c :: acc) []

/-- Split a character stream at a one-character record separator: the sequence
of (terminator-free) lines the reader obtains from `pipe.readline()` with
`newline=sep`.  A trailing chunk after the last separator is returned as well
(for a drained pipe it is empty and reads as an idle poll). -/
def splitSep (sep : Char) : List Char → List (List Char)
  | [] => [[]]
  | c :: rest =>
    match splitSep sep rest with
    | [] => if c = sep then [[], []] else [[c]]
    | h :: t => if c = sep then [] :: h :: t else (c :: h) :: t

/-- A filesystem entry at the channel path. -/
inductive FsEntry | file | fifo | dir
deriving DecidableEq

/-- `os.remove`: succeeds on files and fifos, raises on a directory. -/
def osRemove (e : FsEntry) : Except Unit Unit :=
  match e with
  | .dir => .error ()
  | _ => .ok ()

/-- `os.mkfifo`: fails if something already exists at the path. -/
def osMkfifo (st : Option FsEntry) : Except Unit (Option FsEntry) :=
  match st with
  | some _ => .error ()
  | none => .ok (some .fifo)

/-- `ensure_fifo(path)`: if `os.path.exists(path)` then `os.remove(path)`;
then `os.mkfifo(path)`.  The argument is the entry currently at the path. -/
def ensure_fifo (st : Option FsEntry) : Except Unit (Option FsEntry) :=
  match st with
  | some e => do
      let _ ← osRemove e
      osMkfifo none
  | none => osMkfifo none

/-- The parts of the OS environment read by `pipe_max_size`. -/
structure OsEnv where
  procPipeMaxSize : Option Nat
  isDarwin : Bool

/-- `pipe_max_size()`: the first line of `/proc/sys/fs/pipe-max-size` when that
file exists, else 65536 on darwin, else 4096. -/
def pipe_max_size (env : OsEnv) : Nat :=
  match env.procPipeMaxSize with
  | some v => v
  | none => if env.isDarwin then 65536 else 4096

/-- The class constant `IPClient.ATOMIC_MAX`. -/
def IPClient.ATOMIC_MAX : Nat := 4096

/-- The writer state of `IPClient`: configuration fixed by `__init__` plus the
mutable `_cache` deque (head = index 0 = next entry to transmit). -/
structure IPClient where
  nonblock : Bool
  linestep : List Char
  cacheMaxlen : Nat
  no : List Char
  noe : List Char
  atomLen : Nat
  cache : List (List Char)

/-- `IPClient.__init__` (after the path-existence check): `uuid4tail` models
`str(uuid.uuid4())[-4:]`; `_no = uuid4tail + "#"`, `_noe = _no.replace("#","&")`,
`_atom_len = ATOMIC_MAX - len(_no) - len(linestep)`, empty cache. -/
def IPClient.mk' (uuid4tail : List Char) (nonblock : Bool) (linestep : List Char)
    (cache_len : Nat) : IPClient :=
  let no := uuid4tail ++ ['#']
  { nonblock := nonblock
    linestep := linestep
    cacheMaxlen := cache_len
    no := no
    noe := pyReplace no '#' '&'
    atomLen := IPClient.ATOMIC_MAX - no.length - linestep.length
    cache := [] }

/-- `IPClient._data_pack`. -/
def IPClient.dataPack (c : IPClient) (d : List Char) (endFrag : Bool) : List Char :=
  if endFrag then c.noe ++ d else c.no ++ d

/-- The framed fragments appended by `_write_nonblock` for an oversized line:
`atm_c = len(line) // atom_len` continuation frames of `atom_len` characters
each, then one final frame holding `line[atm_c*atom_len:(atm_c+1)*atom_len]`. -/
def IPClient.fragList (c : IPClient) (line : List Char) : List (List Char) :=
  let atmC := line.length / c.atomLen
  (List.range atmC).map (fun i => c.dataPack ((line.drop (i * c.atomLen)).take c.atomLen) false)
    ++ [c.dataPack ((line.drop (atmC * c.atomLen)).take c.atomLen) true]

/-- The cache-halving eviction of `_write_nonblock`: a new deque holding
`cache[i]` for `i in range(0, maxlen, 2)`. -/
def sampleHalf (maxlen : Nat) (cs : List (List Char)) : List (List Char) :=
  ((List.range maxlen).filter (fun i => i % 2 = 0)).filterMap (fun i => cs[i]?)

/-- `deque.append` with a `maxlen`: appending to a full deque silently drops
from the left. -/
def dequeAppend (maxlen : Nat) (c : List (List Char)) (x : List Char) : List (List Char) :=
  let c2 := c ++ [x]
  if maxlen < c2.length then c2.drop (c2.length - maxlen) else c2

/-- The cache contents after the eviction-and-append phase of
`_write_nonblock`, before the drain loop runs. -/
def IPClient.nbCache (c : IPClient) (line : List Char) : List (List Char) :=
  let cache := if c.cache.length = c.cacheMaxlen then sampleHalf c.cacheMaxlen c.cache else c.cache
  if c.atomLen < line.length then (c.fragList line).foldl (dequeAppend c.cacheMaxlen) cache
  else dequeAppend c.cacheMaxlen cache line

/-- Environment outcome of one iteration of the drain loop: `os.open` raises;
or the open succeeds and `os.write` returns `n` bytes (clamped to the data
length); or the open succeeds and `os.write` raises. -/
inductive WOutcome
  | openFail
  | wrote (n : Nat)
  | writeFail

/-- State of the drain loop in `_write_nonblock`.  `fd` models the Python `fd`
variable: `none` is Python `None`; `some b` means it holds a (nonzero) file
descriptor number whose underlying descriptor is currently open iff `b`.
`wire` collects the bytes actually written to the pipe, `broke` records exit
through `break`, and `escaped` records an OSError propagating uncaught out of
the `except` handler (a second `os.close` on an already-closed descriptor). -/
structure DrainSt where
  cache : List (List Char)
  fd : Option Bool
  wire : List Char
  broke : Bool
  escaped : Bool

/-- One iteration of the `while self._cache:` drain loop of `_write_nonblock`,
driven by the environment outcome of its `os.open`/`os.write` calls. -/
def drainStep (sep : List Char) (s : DrainSt) (o : WOutcome) : DrainSt :=
  if s.broke ∨ s.escaped then s
  else
    match s.cache with
    | [] => s
    | e :: rest =>
      match o with
      | .openFail =>
        match s.fd with
        | none => { s with broke := true }
        | some true => { s with fd := some false, broke := true }
        | some false => { s with escaped := true }
      | .wrote n =>
        let data := e ++ sep
        let n := min n data.length
        if n = data.length then
          { s with cache := rest, fd := some false, wire := s.wire ++ data }
        else
          { s with cache := data.drop n :: rest, fd := some false, wire := s.wire ++ data.take n }
      | .writeFail => { s with fd := some false, broke := true }

/-- `IPClient._write_nonblock`: evict/frame/append, then run the drain loop
through the supplied environment outcomes.  Returns the updated client and the
final drain state. -/
def IPClient.writeNonblock (c : IPClient) (line : List Char) (outs : List WOutcome) :
    IPClient × DrainSt :=
  let st := outs.foldl (drainStep c.linestep)
    { cache := c.nbCache line, fd := none, wire := [], broke := false, escaped := false }
  ({ c with cache := st.cache }, st)

/-- `IPClient._write`: blocking text-mode write of `line + linestep` (with
newline translation); returns the byte stream appended to the pipe. -/
def IPClient.writeBlocking (c : IPClient) (line : List Char) : List Char :=
  pyNlTranslate c.linestep (line ++ c.linestep)

/-- The oversize warning condition in `IPClient.write`:
`if self.PIPE_MAX and len(line) > self.PIPE_MAX`. -/
def IPClient.writeWarns (env : OsEnv) (line : List Char) : Prop :=
  pipe_max_size env ≠ 0 ∧ pipe_max_size env < line.length

/-- Environment outcomes under which every drain iteration opens the pipe and
writes its head entry plus terminator in full. -/
def fullDrainOutcomes (sep : List Char) (entries : List (List Char)) : List WOutcome :=
  entries.map (fun e => .wrote (e.length + sep.length))

/-- State of the reader loop in `IPCServer._run`: the idle counter
`self.saltfish`, the reassembly dict `buf_mp` (insertion-ordered association
list), the lines the executor has been invoked with so far (in order), and
whether the loop has exited through `break`. -/
structure ReaderState where
  saltfish : Nat
  buf : List (List Char × List Char)
  dispatched : List (List Char)
  stopped : Bool

/-- The fresh reader state at loop entry. -/
def ReaderState.init : ReaderState :=
  { saltfish := 0, buf := [], dispatched := [], stopped := false }

/-- `buf_mp` lookup (`line[:4] in buf_mp` / `buf_mp[k]`). -/
def bufGet : List (List Char × List Char) → List Char → Option (List Char)
  | [], _ => none
  | kv :: rest, k => if kv.1 = k then some kv.2 else bufGet rest k

/-- `buf_mp[k] = v`: update in place if the key exists, else insert at the
end (Python dicts preserve insertion order). -/
def bufSet : List (List Char × List Char) → List Char → List Char → List (List Char × List Char)
  | [], k, v => [(k, v)]
  | kv :: rest, k, v => if kv.1 = k then (k, v) :: rest else kv :: bufSet rest k v

/-- `del buf_mp[k]`. -/
def bufDel : List (List Char × List Char) → List Char → List (List Char × List Char)
  | [], _ => []
  | kv :: rest, k => if kv.1 = k then rest else kv :: bufDel rest k

/-- The `saltfish += 1` / `if self.saltfish > 3: if eof.value == 1: break`
tail of a loop iteration (reached after an empty read or a caught exception). -/
def idleTick (eof : Bool) (s : ReaderState) : ReaderState :=
  if 3 < s.saltfish + 1 ∧ eof then { s with saltfish := s.saltfish + 1, stopped := true }
  else { s with saltfish := s.saltfish + 1 }

/-- One iteration of the reader loop of `IPCServer._run` on the raw result of
one `pipe.readline()`.  `execFails line` tells whether the caller-supplied
executor raises on `line`; `dispatched` records every line the executor is
invoked with (the invocation happens before any exception it raises).
Indexing `line[4]` on a nonempty line shorter than 5 characters raises
IndexError, which the `except` clause catches, after which control falls to
the idle tick. -/
def readerStep (execFails : List Char → Bool) (eof : Bool) (s : ReaderState)
    (raw : List Char) : ReaderState :=
  if s.stopped then s
  else
    let ln := pyStrip raw
    if ln = [] then idleTick eof s
    else
      let s0 := { s with saltfish := 0 }
      match ln[4]? with
      | none => idleTick eof s0
      | some c =>
        if c = '#' then
          let v :=
            match bufGet s0.buf (ln.take 4) with
            | some acc => acc ++ ln.drop 5
            | none => ln.drop 5
          { s0 with buf := bufSet s0.buf (ln.take 4) v }
        else
          let step2 :=
            if c = '&' then
              match bufGet s0.buf (ln.take 4) with
              | some acc => ({ s0 with buf := bufDel s0.buf (ln.take 4) }, acc ++ ln.drop 5)
              | none => (s0, ln.drop 5)
            else (s0, ln)
          let s2 := { step2.1 with dispatched := step2.1.dispatched ++ [step2.2] }
          if execFails step2.2 then idleTick eof s2 else s2

/-- The reader loop run over a finite sequence of readline results, with the
Termination Flag (`eof`) held fixed over that stretch. -/
def runReader (execFails : List Char → Bool) (eof : Bool) (s : ReaderState)
    (raws : List (List Char)) : ReaderState :=
  raws.foldl (readerStep execFails eof) s

/-- No trailing whitespace (vacuously true for the empty string). -/
def noTrailWS (l : List Char) : Prop := ∀ c, l.getLast? = some c → pyIsSpace c = false

/-- End-to-end nonblocking transmission: write `line` through `_write_nonblock`
with every drain attempt succeeding in full, then run the reader loop from a
fresh state over the lines it observes on the drained pipe. -/
def nbRoundtrip (c : IPClient) (line : List Char) (sep : Char) (f : List Char → Bool)
    (eof : Bool) : IPClient × DrainSt × ReaderState :=
  let w := c.writeNonblock line (fullDrainOutcomes c.linestep (c.nbCache line))
  (w.1, w.2, runReader f eof ReaderState.init (splitSep sep w.2.wire))

/-- End-to-end blocking transmission: one `_write` followed by the reader loop
over the resulting stream. -/
def blockRoundtrip (c : IPClient) (line : List Char) (sep : Char) (f : List Char → Bool)
    (eof : Bool) : ReaderState :=
  runReader f eof ReaderState.init (splitSep sep (c.writeBlocking line))

/-- One `write()` call in nonblocking mode whose drain loop finds no reader
attached (`os.open` raises ENXIO at the first iteration), as in a burst with
no reader process listening. -/
def wStep (c : IPClient) (l : List Char) : IPClient := (c.writeNonblock l [.openFail]).1

/-- The writer of the burst scenario: `cache_capacity = 100`, nonblocking, the
default terminator, with a given cache contents. -/
def cliWith (cache : List (List Char)) : IPClient :=
  { IPClient.mk' ['a', 'b', '1', '2'] true ['\x0d'] 100 with cache := cache }

/-- 150 distinct one-byte lines (code points 200..349, none whitespace). -/
def burstLines (start len : Nat) : List (List Char) :=
  (List.range' start len).map (fun n => [Char.ofNat n])

/-- The cache the eviction rule predicts after the 150-line burst: every
second of the first 100 lines, then the last 50 lines. -/
def burstSurvivors : List (List Char) :=
  ((List.range 50).map (fun i => [Char.ofNat (200 + 2 * i)]))
    ++ ((List.range' 300 50).map (fun n => [Char.ofNat n]))

/-! ### Whitespace and strip lemmas -/

theorem pyStrip_nil : pyStrip [] = [] := rfl

theorem mem_of_head?_eq_some {l : List Char} {a : Char} (h : l.head? = some a) : a ∈ l := by
  obtain ⟨t, rfl⟩ := List.head?_eq_some_iff.1 h
  exact List.mem_cons_self a t

theorem dropWhileWS_eq_self {l : List Char}
    (h : ∀ c, l.head? = some c → pyIsSpace c = false) : l.dropWhile pyIsSpace = l := by
  cases l with
  | nil => rfl
  | cons a t => exact List.dropWhile_cons_of_neg (by simp [h a rfl])

theorem pyStrip_eq_self {l : List Char}
    (h1 : ∀ c, l.head? = some c → pyIsSpace c = false)
    (h2 : ∀ c, l.getLast? = some c → pyIsSpace c = false) : pyStrip l = l := by
  unfold pyStrip
  rw [dropWhileWS_eq_self h1, dropWhileWS_eq_self, List.reverse_reverse]
  intro c hc
  rw [List.head?_reverse] at hc
  exact h2 c hc

theorem pyStrip_concat_ws {v : List Char} {c : Char}
    (h1 : ∀ x, v.head? = some x → pyIsSpace x = false)
    (h2 : ∀ x, v.getLast? = some x → pyIsSpace x = false)
    (hc : pyIsSpace c = true) : pyStrip (v ++ [c]) = v := by
  cases v with
  | nil => simp [pyStrip, List.dropWhile, hc]
  | cons a t =>
    show pyStrip (a :: (t ++ [c])) = a :: t
    unfold pyStrip
    rw [List.dropWhile_cons_of_neg (by simp [h1 a rfl])]
    have hrev : (a :: (t ++ [c])).reverse = c :: (a :: t).reverse := by
      show ((a :: t) ++ [c]).reverse = _
      simp
    rw [hrev, List.dropWhile_cons_of_pos (by simp [hc])]
    rw [dropWhileWS_eq_self, List.reverse_reverse]
    intro x hx
    rw [List.head?_reverse] at hx
    exact h2 x hx

theorem pyStrip_getLast_not_ws {l : List Char} {c : Char}
    (h : (pyStrip l).getLast? = some c) : pyIsSpace c = false := by
  unfold pyStrip at h
  rw [List.getLast?_reverse] at h
  have := List.head?_dropWhile_not pyIsSpace ((l.dropWhile pyIsSpace).reverse)
  rw [h] at this
  exact this

theorem noTrailWS_nil : noTrailWS [] := by
  intro c hc
  simp at hc

theorem noTrailWS_pyStrip (l : List Char) : noTrailWS (pyStrip l) :=
  fun _ hc => pyStrip_getLast_not_ws hc

theorem noTrailWS_append {a b : List Char} (ha : noTrailWS a) (hb : noTrailWS b) :
    noTrailWS (a ++ b) := by
  intro c hc
  rw [List.getLast?_append] at hc
  cases hgb : b.getLast? with
  | some x => rw [hgb] at hc; simp at hc; exact hc ▸ hb x hgb
  | none => rw [hgb] at hc; simp at hc; exact ha c hc

theorem noTrailWS_drop {l : List Char} (h : noTrailWS l) (n : Nat) : noTrailWS (l.drop n) := by
  intro c hc
  rw [List.getLast?_drop] at hc
  by_cases hn : l.length ≤ n
  · simp [hn] at hc
  · simp [hn] at hc; exact h c hc

/-! ### Frame lemmas: a frame is `(u ++ [marker]) ++ payload` with `len(u) = 4` -/

theorem frame_ne_nil {u p : List Char} {m : Char} : (u ++ [m]) ++ p ≠ [] := by simp

theorem frame_getElem4 {u p : List Char} {m : Char} (hu : u.length = 4) :
    ((u ++ [m]) ++ p)[4]? = some m := by
  rw [List.getElem?_append_left (by simp [hu])]
  rw [List.getElem?_append_right (by simp [hu])]
  simp [hu]

theorem frame_take4 {u p : List Char} {m : Char} (hu : u.length = 4) :
    ((u ++ [m]) ++ p).take 4 = u := by
  rw [List.take_append_eq_append_take, List.take_append_eq_append_take]
  simp [hu, List.take_of_length_le]

theorem frame_drop5 {u p : List Char} {m : Char} (hu : u.length = 4) :
    ((u ++ [m]) ++ p).drop 5 = p := by
  rw [List.drop_append_eq_append_drop]
  have h5 : (u ++ [m]).length = 5 := by simp [hu]
  rw [List.drop_of_length_le (le_of_eq h5)]
  simp [h5]

theorem frame_pyStrip {u p : List Char} {m : Char} (hu : u.length = 4)
    (huw : ∀ c ∈ u, pyIsSpace c = false) (hm : pyIsSpace m = false)
    (hp : ∀ c ∈ p, pyIsSpace c = false) :
    pyStrip ((u ++ [m]) ++ p) = (u ++ [m]) ++ p := by
  apply pyStrip_eq_self
  · intro c hc
    rw [List.head?_append, List.head?_append] at hc
    cases hh : u.head? with
    | some x =>
      rw [hh] at hc
      simp at hc
      exact hc ▸ huw x (mem_of_head?_eq_some hh)
    | none =>
      rw [List.head?_eq_none_iff] at hh
      subst hh
      simp at hu
  · intro c hc
    rw [List.getLast?_append] at hc
    cases hp' : p.getLast? with
    | some x =>
      rw [hp'] at hc
      simp at hc
      exact hc ▸ hp x (List.mem_of_getLast?_eq_some hp')
    | none =>
      rw [hp'] at hc
      simp at hc
      exact hc ▸ hm

/-! ### Reader loop step lemmas -/

theorem readerStep_stopped {f : List Char → Bool} {eof : Bool} {s : ReaderState}
    {raw : List Char} (hs : s.stopped = true) : readerStep f eof s raw = s := by
  simp [readerStep, hs]

theorem readerStep_empty {f : List Char → Bool} {eof : Bool} {s : ReaderState}
    {raw : List Char} (hs : s.stopped = false) (h : pyStrip raw = []) :
    readerStep f eof s raw = idleTick eof s := by
  simp [readerStep, hs, h]

theorem readerStep_frame_cont {f : List Char → Bool} {eof : Bool} {s : ReaderState}
    {raw u p : List Char} (hs : s.stopped = false) (hu : u.length = 4)
    (hstrip : pyStrip raw = (u ++ ['#']) ++ p) :
    readerStep f eof s raw =
      { s with saltfish := 0,
               buf := bufSet s.buf u
                 (match bufGet s.buf u with
                  | some acc => acc ++ p
                  | none => p) } := by
  simp only [readerStep, hs, hstrip, Bool.false_eq_true, if_false,
    frame_getElem4 hu, frame_take4 hu, frame_drop5 hu]
  rw [if_neg frame_ne_nil]
  simp

theorem readerStep_frame_final {f : List Char → Bool} {eof : Bool} {s : ReaderState}
    {raw u p acc : List Char} (hs : s.stopped = false) (hu : u.length = 4)
    (hstrip : pyStrip raw = (u ++ ['&']) ++ p) (hget : bufGet s.buf u = some acc) :
    readerStep f eof s raw =
      { s with saltfish := if f (acc ++ p) then 1 else 0,
               buf := bufDel s.buf u,
               dispatched := s.dispatched ++ [acc ++ p],
               stopped := false } := by
  simp only [readerStep, hs, hstrip, Bool.false_eq_true, if_false,
    frame_getElem4 hu, frame_take4 hu, frame_drop5 hu, hget]
  rw [if_neg frame_ne_nil]
  by_cases hf : f (acc ++ p) = true
  · simp [hf, idleTick, hs]
  · simp at hf
    simp [hf, hs]

theorem readerStep_frame_final_nobuf {f : List Char → Bool} {eof : Bool} {s : ReaderState}
    {raw u p : List Char} (hs : s.stopped = false) (hu : u.length = 4)
    (hstrip : pyStrip raw = (u ++ ['&']) ++ p) (hget : bufGet s.buf u = none) :
    readerStep f eof s raw =
      { s with saltfish := if f p then 1 else 0,
               dispatched := s.dispatched ++ [p],
               stopped := false } := by
  simp only [readerStep, hs, hstrip, Bool.false_eq_true, if_false,
    frame_getElem4 hu, frame_take4 hu, frame_drop5 hu, hget]
  rw [if_neg frame_ne_nil]
  by_cases hf : f p = true
  · simp [hf, idleTick, hs]
  · simp at hf
    simp [hf, hs]

theorem readerStep_plain {f : List Char → Bool} {eof : Bool} {s : ReaderState}
    {raw ln : List Char} {ch : Char} (hs : s.stopped = false)
    (hstrip : pyStrip raw = ln) (hne : ln ≠ []) (h4 : ln[4]? = some ch)
    (hch1 : ch ≠ '#') (hch2 : ch ≠ '&') :
    readerStep f eof s raw =
      { s with saltfish := if f ln then 1 else 0,
               dispatched := s.dispatched ++ [ln],
               stopped := false } := by
  simp only [readerStep, hs, hstrip, Bool.false_eq_true, if_false, h4]
  rw [if_neg hne, if_neg hch1, if_neg hch2]
  by_cases hf : f ln = true
  · simp [hf, idleTick, hs]
  · simp at hf
    simp [hf, hs]

theorem readerStep_shortline {f : List Char → Bool} {eof : Bool} {s : ReaderState}
    {raw ln : List Char} (hs : s.stopped = false) (hstrip : pyStrip raw = ln)
    (hne : ln ≠ []) (h4 : ln[4]? = none) :
    readerStep f eof s raw = { s with saltfish := 1, stopped := false } := by
  simp only [readerStep, hs, hstrip, Bool.false_eq_true, if_false, h4]
  rw [if_neg hne]
  simp [idleTick, hs]

theorem runReader_nil {f : List Char → Bool} {eof : Bool} {s : ReaderState} :
    runReader f eof s [] = s := rfl

theorem runReader_cons {f : List Char → Bool} {eof : Bool} {s : ReaderState}
    {raw : List Char} {raws : List (List Char)} :
    runReader f eof s (raw :: raws) = runReader f eof (readerStep f eof s raw) raws := rfl

theorem runReader_append {f : List Char → Bool} {eof : Bool} {s : ReaderState}
    {l1 l2 : List (List Char)} :
    runReader f eof s (l1 ++ l2) = runReader f eof (runReader f eof s l1) l2 :=
  List.foldl_append _ _ l1 l2

/-! ### Drain loop lemmas -/

theorem drain_full (sep : List Char) :
    ∀ (entries : List (List Char)) (fd0 : Option Bool) (w0 : List Char),
      ((fullDrainOutcomes sep entries).foldl (drainStep sep)
          { cache := entries, fd := fd0, wire := w0, broke := false, escaped := false } :
        DrainSt).cache = [] ∧
      ((fullDrainOutcomes sep entries).foldl (drainStep sep)
          { cache := entries, fd := fd0, wire := w0, broke := false, escaped := false } :
        DrainSt).wire = w0 ++ (entries.map (fun e => e ++ sep)).flatten ∧
      ((fullDrainOutcomes sep entries).foldl (drainStep sep)
          { cache := entries, fd := fd0, wire := w0, broke := false, escaped := false } :
        DrainSt).broke = false ∧
      ((fullDrainOutcomes sep entries).foldl (drainStep sep)
          { cache := entries, fd := fd0, wire := w0, broke := false, escaped := false } :
        DrainSt).escaped = false := by
  intro entries
  induction entries with
  | nil => intro fd0 w0; simp [fullDrainOutcomes]
  | cons e rest ih =>
    intro fd0 w0
    have hstep : drainStep sep
        { cache := e :: rest, fd := fd0, wire := w0, broke := false, escaped := false }
        (.wrote (e.length + sep.length)) =
        { cache := rest, fd := some false, wire := w0 ++ (e ++ sep), broke := false,
          escaped := false } := by
      simp [drainStep]
    have hfold : (fullDrainOutcomes sep (e :: rest)).foldl (drainStep sep)
        { cache := e :: rest, fd := fd0, wire := w0, broke := false, escaped := false } =
        (fullDrainOutcomes sep rest).foldl (drainStep sep)
          { cache := rest, fd := some false, wire := w0 ++ (e ++ sep), broke := false,
            escaped := false } := by
      simp only [fullDrainOutcomes, List.map_cons, List.foldl_cons]
      rw [hstep]
    rw [hfold]
    have h := ih (some false) (w0 ++ (e ++ sep))
    refine ⟨h.1, ?_, h.2.2.1, h.2.2.2⟩
    rw [h.2.1]
    simp

/-! ### Stream splitting lemmas -/

theorem splitSep_ne_nil (sep : Char) : ∀ s : List Char, splitSep sep s ≠ [] := by
  intro s
  induction s with
  | nil => simp [splitSep]
  | cons c rest ih =>
    unfold splitSep
    cases h : splitSep sep rest with
    | nil => exact absurd h ih
    | cons hd tl =>
      by_cases hc : c = sep <;> simp [hc]

theorem splitSep_cons_sep (sep : Char) (s : List Char) :
    splitSep sep (sep :: s) = [] :: splitSep sep s := by
  show (match splitSep sep s with
    | [] => if sep = sep then [[], []] else [[sep]]
    | h :: t => if sep = sep then [] :: h :: t else (sep :: h) :: t) = [] :: splitSep sep s
  cases h : splitSep sep s with
  | nil => exact absurd h (splitSep_ne_nil sep s)
  | cons hd tl => simp

theorem splitSep_entry (sep : Char) :
    ∀ (e s : List Char), sep ∉ e →
      splitSep sep (e ++ sep :: s) = e :: splitSep sep s := by
  intro e
  induction e with
  | nil => intro s _; exact splitSep_cons_sep sep s
  | cons c t ih =>
    intro s hmem
    have hc : c ≠ sep := fun h => hmem (h ▸ List.mem_cons_self c t)
    have ht : sep ∉ t := fun h => hmem (List.mem_cons_of_mem c h)
    show (match splitSep sep (t ++ sep :: s) with
      | [] => if c = sep then [[], []] else [[c]]
      | h :: tl => if c = sep then [] :: h :: tl else (c :: h) :: tl) =
        (c :: t) :: splitSep sep s
    rw [ih s ht]
    simp [hc]

theorem splitSep_terminated (sep : Char) :
    ∀ entries : List (List Char), (∀ e ∈ entries, sep ∉ e) →
      splitSep sep ((entries.map (fun e => e ++ [sep])).flatten) = entries ++ [[]] := by
  intro entries
  induction entries with
  | nil => intro _; rfl
  | cons e rest ih =>
    intro h
    have he : sep ∉ e := h e (List.mem_cons_self e rest)
    have hr : ∀ x ∈ rest, sep ∉ x := fun x hx => h x (List.mem_cons_of_mem e hx)
    have hflat : ((e :: rest).map (fun e => e ++ [sep])).flatten =
        e ++ sep :: (rest.map (fun e => e ++ [sep])).flatten := by
      simp
    rw [hflat, splitSep_entry sep e _ he, ih hr]
    rfl

/-! ### Deque and eviction lemmas -/

theorem foldl_dequeAppend_of_le (m : Nat) :
    ∀ (l : List (List Char)) (c : List (List Char)), c.length + l.length ≤ m →
      l.foldl (dequeAppend m) c = c ++ l := by
  intro l
  induction l with
  | nil => intro c _; simp
  | cons x xs ih =>
    intro c hle
    simp only [List.length_cons] at hle
    have hx : dequeAppend m c x = c ++ [x] := by
      unfold dequeAppend
      rw [if_neg]
      simp only [List.length_append, List.length_cons, List.length_nil]
      omega
    rw [List.foldl_cons, hx, ih (c ++ [x]) (by simp; omega)]
    simp

theorem dequeAppend_of_lt {m : Nat} {c : List (List Char)} {x : List Char}
    (h : c.length < m) : dequeAppend m c x = c ++ [x] := by
  unfold dequeAppend
  rw [if_neg]
  simp only [List.length_append, List.length_cons, List.length_nil]
  omega

/-! ### Slice lemmas for fragmentation -/

theorem flatten_slices (L : List Char) (a : Nat) :
    ∀ k : Nat, (((List.range k).map (fun i => (L.drop (i * a)).take a)).flatten) =
      L.take (k * a) := by
  intro k
  induction k with
  | zero => simp
  | succ k ih =>
    rw [List.range_succ, List.map_append, List.flatten_append, ih]
    simp only [List.map_cons, List.map_nil, List.flatten_cons, List.flatten_nil,
      List.append_nil]
    rw [Nat.succ_mul, List.take_add]

theorem final_slice (L : List Char) (a : Nat) (ha : 0 < a) :
    (L.drop ((L.length / a) * a)).take a = L.drop ((L.length / a) * a) := by
  apply List.take_of_length_le
  rw [List.length_drop]
  have hmod : L.length % a < a := Nat.mod_lt _ ha
  have hdm : a * (L.length / a) + L.length % a = L.length := Nat.div_add_mod L.length a
  have hcomm : (L.length / a) * a = a * (L.length / a) := Nat.mul_comm _ _
  omega

theorem slices_reassemble (L : List Char) (a : Nat) :
    L.take ((L.length / a) * a) ++ L.drop ((L.length / a) * a) = L :=
  List.take_append_drop _ L

/-! ### Constructor lemmas -/

theorem map_replace_not_mem {u : List Char} {a b : Char} (h : a ∉ u) :
    u.map (fun c => if c = a then b else c) = u := by
  induction u with
  | nil => rfl
  | cons x t ih =>
    have hx : x ≠ a := fun hh => h (hh ▸ List.mem_cons_self x t)
    have ht : a ∉ t := fun hh => h (List.mem_cons_of_mem x hh)
    simp [hx, ih ht]

theorem mk'_no (u : List Char) (nb : Bool) (ls : List Char) (m : Nat) :
    (IPClient.mk' u nb ls m).no = u ++ ['#'] := rfl

theorem mk'_noe {u : List Char} (h : '#' ∉ u) (nb : Bool) (ls : List Char) (m : Nat) :
    (IPClient.mk' u nb ls m).noe = u ++ ['&'] := by
  show pyReplace (u ++ ['#']) '#' '&' = u ++ ['&']
  unfold pyReplace
  rw [List.map_append, map_replace_not_mem h]
  rfl

theorem mk'_atomLen {u : List Char} (hu : u.length = 4) (nb : Bool) (ls : List Char) (m : Nat) :
    (IPClient.mk' u nb ls m).atomLen = 4091 - ls.length := by
  show IPClient.ATOMIC_MAX - (u ++ ['#']).length - ls.length = _
  simp [IPClient.ATOMIC_MAX, hu]

/-! ### Idle tick lemmas -/

theorem idleTick_of_le {eof : Bool} {s : ReaderState} (h : s.saltfish + 1 ≤ 3) :
    idleTick eof s = { s with saltfish := s.saltfish + 1 } := by
  unfold idleTick
  rw [if_neg]
  intro hh
  omega

theorem idleTick_noflag {s : ReaderState} :
    idleTick false s = { s with saltfish := s.saltfish + 1 } := by
  simp [idleTick]

theorem idleTick_stopped {eof : Bool} {s : ReaderState} :
    (idleTick eof s).stopped = s.stopped ∨ (idleTick eof s).stopped = true := by
  unfold idleTick
  by_cases h : 3 < s.saltfish + 1 ∧ eof = true
  · rw [if_pos h]; right; rfl
  · rw [if_neg h]; left; rfl

/-! ### Continuation-fragment accumulation -/

theorem runReader_cont_run (f : List Char → Bool) (eof : Bool) (u : List Char)
    (hu : u.length = 4) (huw : ∀ c ∈ u, pyIsSpace c = false) :
    ∀ (slices : List (List Char)),
      (∀ sl ∈ slices, ∀ c ∈ sl, pyIsSpace c = false) →
      ∀ (sf : Nat) (d : List (List Char)) (acc : List Char),
        runReader f eof { saltfish := sf, buf := [(u, acc)], dispatched := d, stopped := false }
          (slices.map (fun sl => (u ++ ['#']) ++ sl)) =
        { saltfish := if slices = [] then sf else 0, buf := [(u, acc ++ slices.flatten)],
          dispatched := d, stopped := false } := by
  intro slices
  induction slices with
  | nil => intro _ sf d acc; simp [runReader_nil]
  | cons sl sls ih =>
    intro hws sf d acc
    have hsl : ∀ c ∈ sl, pyIsSpace c = false := hws sl (List.mem_cons_self sl sls)
    have hsls : ∀ x ∈ sls, ∀ c ∈ x, pyIsSpace c = false :=
      fun x hx => hws x (List.mem_cons_of_mem sl hx)
    have hstrip : pyStrip ((u ++ ['#']) ++ sl) = (u ++ ['#']) ++ sl :=
      frame_pyStrip hu huw (by decide) hsl
    rw [List.map_cons, runReader_cons, readerStep_frame_cont rfl hu hstrip]
    have hget : bufGet [(u, acc)] u = some acc := by simp [bufGet]
    have hset : bufSet [(u, acc)] u (acc ++ sl) = [(u, acc ++ sl)] := by simp [bufSet]
    simp only [hget, hset]
    rw [ih hsls 0 d (acc ++ sl)]
    simp

/-! ### Projection lemmas for the pipeline -/

theorem writeNonblock_fst (c : IPClient) (line : List Char) (outs : List WOutcome) :
    (c.writeNonblock line outs).1 =
      { c with cache := ((outs.foldl (drainStep c.linestep)
        { cache := c.nbCache line, fd := none, wire := [], broke := false,
          escaped := false }) : DrainSt).cache } := rfl

theorem writeNonblock_snd (c : IPClient) (line : List Char) (outs : List WOutcome) :
    (c.writeNonblock line outs).2 =
      outs.foldl (drainStep c.linestep)
        { cache := c.nbCache line, fd := none, wire := [], broke := false,
          escaped := false } := rfl

theorem nbRoundtrip_reader (c : IPClient) (line : List Char) (sep : Char)
    (f : List Char → Bool) (eof : Bool) :
    (nbRoundtrip c line sep f eof).2.2 =
      runReader f eof ReaderState.init (splitSep sep
        ((c.writeNonblock line (fullDrainOutcomes c.linestep (c.nbCache line))).2.wire)) := rfl

theorem nbRoundtrip_client (c : IPClient) (line : List Char) (sep : Char)
    (f : List Char → Bool) (eof : Bool) :
    (nbRoundtrip c line sep f eof).1 =
      (c.writeNonblock line (fullDrainOutcomes c.linestep (c.nbCache line))).1 := rfl

/-! ### The fragmentation round trip -/

theorem nbFragPipeline (c : IPClient) (u L : List Char) (sep : Char) (f : List Char → Bool)
    (eof : Bool)
    (hno : c.no = u ++ ['#']) (hnoe : c.noe = u ++ ['&']) (hls : c.linestep = [sep])
    (hc0 : c.cache = [])
    (hu : u.length = 4) (huw : ∀ x ∈ u, pyIsSpace x = false)
    (husep : sep ∉ u) (hsep1 : sep ≠ '#') (hsep2 : sep ≠ '&')
    (hLw : ∀ x ∈ L, pyIsSpace x = false) (hLsep : sep ∉ L)
    (ha0 : 0 < c.atomLen) (hlong : c.atomLen < L.length)
    (hfit : L.length / c.atomLen + 1 ≤ c.cacheMaxlen) :
    (nbRoundtrip c L sep f eof).2.2.dispatched = [L] ∧
    (nbRoundtrip c L sep f eof).2.2.buf = [] ∧
    (nbRoundtrip c L sep f eof).2.2.stopped = false ∧
    (nbRoundtrip c L sep f eof).1.cache = [] := by
  have hk1 : 1 ≤ L.length / c.atomLen := (Nat.one_le_div_iff ha0).2 (le_of_lt hlong)
  have hfrag : c.fragList L =
      ((List.range (L.length / c.atomLen)).map
        (fun i => (u ++ ['#']) ++ ((L.drop (i * c.atomLen)).take c.atomLen)))
      ++ [(u ++ ['&']) ++ L.drop ((L.length / c.atomLen) * c.atomLen)] := by
    simp only [IPClient.fragList, IPClient.dataPack, Bool.false_eq_true, if_false, if_true,
      ite_true, ite_false, hno, hnoe]
    rw [final_slice L _ ha0]
  have hcount : (c.fragList L).length = L.length / c.atomLen + 1 := by
    rw [hfrag]
    simp
  have hcache : c.nbCache L = c.fragList L := by
    have hm : ¬ (([] : List (List Char)).length = c.cacheMaxlen) := by
      simp only [List.length_nil]
      omega
    have h1 : c.nbCache L = (c.fragList L).foldl (dequeAppend c.cacheMaxlen) [] := by
      unfold IPClient.nbCache
      rw [hc0, if_neg hm, if_pos hlong]
    rw [h1, foldl_dequeAppend_of_le c.cacheMaxlen (c.fragList L) []
      (by simp only [List.length_nil, Nat.zero_add, hcount]; exact hfit)]
    simp
  have hfree : ∀ e ∈ c.fragList L, sep ∉ e := by
    rw [hfrag]
    intro e he
    rcases List.mem_append.1 he with h | h
    · obtain ⟨i, hi, rfl⟩ := List.mem_map.1 h
      intro hmem
      rcases List.mem_append.1 hmem with h1 | h2
      · rcases List.mem_append.1 h1 with h3 | h4
        · exact husep h3
        · simp at h4
          exact hsep1 h4
      · exact hLsep (List.drop_subset _ _ (List.take_subset _ _ h2))
    · simp only [List.mem_singleton] at h
      subst h
      intro hmem
      rcases List.mem_append.1 hmem with h1 | h2
      · rcases List.mem_append.1 h1 with h3 | h4
        · exact husep h3
        · simp at h4
          exact hsep2 h4
      · exact hLsep (List.drop_subset _ _ h2)
  have key := drain_full [sep] (c.fragList L) none []
  have hwire : ((c.writeNonblock L (fullDrainOutcomes c.linestep (c.nbCache L))).2).wire
      = (((c.fragList L).map (fun e => e ++ [sep])).flatten) := by
    rw [writeNonblock_snd, hls, hcache, key.2.1]
    simp
  have hsub : ∀ sl ∈ (List.range (L.length / c.atomLen)).map
      (fun i => (L.drop (i * c.atomLen)).take c.atomLen), ∀ x ∈ sl, pyIsSpace x = false := by
    intro sl hsl x hx
    obtain ⟨i, hi, rfl⟩ := List.mem_map.1 hsl
    exact hLw x (List.drop_subset _ _ (List.take_subset _ _ hx))
  obtain ⟨s0, srest, hS⟩ := List.exists_cons_of_ne_nil
    (l := (List.range (L.length / c.atomLen)).map
      (fun i => (L.drop (i * c.atomLen)).take c.atomLen))
    (by
      intro hnil
      have hlen := congrArg List.length hnil
      simp at hlen
      omega)
  have hs0 : ∀ x ∈ s0, pyIsSpace x = false :=
    hsub s0 (hS ▸ List.mem_cons_self s0 srest)
  have hsrest : ∀ sl ∈ srest, ∀ x ∈ sl, pyIsSpace x = false :=
    fun sl hsl => hsub sl (hS ▸ List.mem_cons_of_mem s0 hsl)
  have hD : ∀ x ∈ L.drop ((L.length / c.atomLen) * c.atomLen), pyIsSpace x = false :=
    fun x hx => hLw x (List.drop_subset _ _ hx)
  have hrun : runReader f eof ReaderState.init (c.fragList L ++ [[]]) =
      { saltfish := (if f L then 1 else 0) + 1, buf := [], dispatched := [L],
        stopped := false } := by
    rw [hfrag, List.append_assoc]
    have hmm : ((List.range (L.length / c.atomLen)).map
        (fun i => (u ++ ['#']) ++ ((L.drop (i * c.atomLen)).take c.atomLen)))
        = ((s0 :: srest).map (fun sl => (u ++ ['#']) ++ sl)) := by
      rw [← hS, List.map_map]
      rfl
    rw [hmm, List.map_cons, List.cons_append, runReader_cons]
    rw [readerStep_frame_cont rfl hu (frame_pyStrip hu huw (by decide) hs0)]
    simp only [ReaderState.init, bufGet, bufSet]
    rw [runReader_append]
    rw [runReader_cont_run f eof u hu huw srest hsrest 0 [] s0]
    have hflat : s0 ++ srest.flatten = L.take ((L.length / c.atomLen) * c.atomLen) := by
      rw [← List.flatten_cons, ← hS, flatten_slices]
    rw [hflat]
    have hif : (if srest = [] then (0 : Nat) else 0) = 0 := ite_self 0
    rw [hif, List.singleton_append, runReader_cons]
    rw [readerStep_frame_final rfl hu (frame_pyStrip hu huw (by decide) hD)
      (show bufGet [(u, L.take ((L.length / c.atomLen) * c.atomLen))] u
          = some (L.take ((L.length / c.atomLen) * c.atomLen)) by simp [bufGet])]
    have hTD : L.take ((L.length / c.atomLen) * c.atomLen)
        ++ L.drop ((L.length / c.atomLen) * c.atomLen) = L := List.take_append_drop _ L
    rw [hTD]
    simp only [bufDel, List.nil_append]
    rw [runReader_cons, runReader_nil]
    rw [readerStep_empty rfl pyStrip_nil, idleTick_of_le (by by_cases hf : f L = true <;> simp [hf])]
    simp
  refine ⟨?_, ?_, ?_, ?_⟩
  · rw [nbRoundtrip_reader, hwire, splitSep_terminated sep _ hfree, hrun]
  · rw [nbRoundtrip_reader, hwire, splitSep_terminated sep _ hfree, hrun]
  · rw [nbRoundtrip_reader, hwire, splitSep_terminated sep _ hfree, hrun]
  · rw [nbRoundtrip_client, writeNonblock_fst, hls, hcache]
    show ((fullDrainOutcomes [sep] (c.fragList L)).foldl (drainStep [sep])
      { cache := c.fragList L, fd := none, wire := [], broke := false,
        escaped := false } : DrainSt).cache = []
    exact key.1

theorem readerStep_frame_cont_init (f : List Char → Bool) (eof : Bool)
    {raw u p : List Char} (hu : u.length = 4)
    (hstrip : pyStrip raw = (u ++ ['#']) ++ p) :
    readerStep f eof ReaderState.init raw =
      { saltfish := 0, buf := [(u, p)], dispatched := [], stopped := false } := by
  rw [readerStep_frame_cont rfl hu hstrip]
  rfl

theorem append_pair_nil (x y : List Char) :
    ([x, y] ++ [[]] : List (List Char)) = [x, y, []] := rfl

theorem nbWriteSplits (c : IPClient) (L : List Char) (sep : Char)
    (hls : c.linestep = [sep]) (hc0 : c.cache = [])
    (ha0 : 0 < c.atomLen) (hlong : c.atomLen < L.length)
    (hfit : L.length / c.atomLen + 1 ≤ c.cacheMaxlen)
    (hfree : ∀ e ∈ c.fragList L, sep ∉ e) :
    splitSep sep ((c.writeNonblock L (fullDrainOutcomes c.linestep (c.nbCache L))).2.wire)
      = c.fragList L ++ [[]] ∧
    (c.writeNonblock L (fullDrainOutcomes c.linestep (c.nbCache L))).1.cache = [] := by
  have hk1 : 1 ≤ L.length / c.atomLen := (Nat.one_le_div_iff ha0).2 (le_of_lt hlong)
  have hcount : (c.fragList L).length = L.length / c.atomLen + 1 := by
    simp [IPClient.fragList]
  have hcache : c.nbCache L = c.fragList L := by
    have hm : ¬ (([] : List (List Char)).length = c.cacheMaxlen) := by
      simp only [List.length_nil]
      omega
    have h1 : c.nbCache L = (c.fragList L).foldl (dequeAppend c.cacheMaxlen) [] := by
      unfold IPClient.nbCache
      rw [hc0, if_neg hm, if_pos hlong]
    rw [h1, foldl_dequeAppend_of_le c.cacheMaxlen (c.fragList L) []
      (by simp only [List.length_nil, Nat.zero_add, hcount]; exact hfit)]
    simp
  have key := drain_full [sep] (c.fragList L) none []
  constructor
  · rw [writeNonblock_snd, hls, hcache, key.2.1, List.nil_append,
      splitSep_terminated sep _ hfree]
  · rw [writeNonblock_fst, hls, hcache]
    show ((fullDrainOutcomes [sep] (c.fragList L)).foldl (drainStep [sep])
      { cache := c.fragList L, fd := none, wire := [], broke := false,
        escaped := false } : DrainSt).cache = []
    exact key.1

/-- Claim C1 (amended): for a writer constructed by `IPClient.__init__` with a
4-character correlation tail and a single-character terminator, and any line
`L` longer than the atomic budget whose characters are neither whitespace nor
the terminator, provided the fragments fit the cache, a nonblocking write
followed by a full drain makes the reader dispatch exactly one line equal to
`L`, with no leftover reassembly-buffer entry and an emptied cache.  (The
original claim, quantifying over all `L`, is false: the reader strips each raw
line, so whitespace at a fragment boundary is lost — see the counterexample.) -/
theorem fragRoundtripAmended (u L : List Char) (sep : Char) (m : Nat)
    (f : List Char → Bool) (eof : Bool)
    (hu : u.length = 4) (huw : ∀ x ∈ u, pyIsSpace x = false)
    (husep : sep ∉ u) (hupound : '#' ∉ u)
    (hsep1 : sep ≠ '#') (hsep2 : sep ≠ '&')
    (hLw : ∀ x ∈ L, pyIsSpace x = false) (hLsep : sep ∉ L)
    (hlong : (IPClient.mk' u true [sep] m).atomLen < L.length)
    (hfit : L.length / (IPClient.mk' u true [sep] m).atomLen + 1 ≤ m) :
    (nbRoundtrip (IPClient.mk' u true [sep] m) L sep f eof).2.2.dispatched = [L] ∧
    (nbRoundtrip (IPClient.mk' u true [sep] m) L sep f eof).2.2.buf = [] ∧
    (nbRoundtrip (IPClient.mk' u true [sep] m) L sep f eof).2.2.stopped = false ∧
    (nbRoundtrip (IPClient.mk' u true [sep] m) L sep f eof).1.cache = [] := by
  have ha := mk'_atomLen hu true [sep] m
  exact nbFragPipeline _ u L sep f eof rfl (mk'_noe hupound _ _ _) rfl rfl hu huw husep
    hsep1 hsep2 hLw hLsep (by rw [ha]; simp) hlong hfit

theorem fragRoundtripAmendedWitness :
    (IPClient.mk' ['a', 'b', '1', '2'] true ['\x0d'] 500).atomLen
      < (List.replicate 4091 'x').length ∧
    (nbRoundtrip (IPClient.mk' ['a', 'b', '1', '2'] true ['\x0d'] 500)
      (List.replicate 4091 'x') '\x0d' (fun _ => false) false).2.2.dispatched
      = [List.replicate 4091 'x'] := by
  have hu4 : (['a', 'b', '1', '2'] : List Char).length = 4 := by decide
  have hLw : ∀ x ∈ List.replicate 4091 'x', pyIsSpace x = false := by
    intro x hx
    rw [List.eq_of_mem_replicate hx]
    decide
  have hLsep : '\x0d' ∉ List.replicate 4091 'x' := by
    intro hx
    exact absurd (List.eq_of_mem_replicate hx) (by decide)
  have hlong : (IPClient.mk' ['a', 'b', '1', '2'] true ['\x0d'] 500).atomLen
      < (List.replicate 4091 'x').length := by
    rw [mk'_atomLen hu4, List.length_replicate]
    decide
  have hfit : (List.replicate 4091 'x').length
      / (IPClient.mk' ['a', 'b', '1', '2'] true ['\x0d'] 500).atomLen + 1 ≤ 500 := by
    rw [mk'_atomLen hu4, List.length_replicate]
    decide
  exact ⟨hlong, (fragRoundtripAmended ['a', 'b', '1', '2'] (List.replicate 4091 'x')
    '\x0d' 500 (fun _ => false) false hu4 (by decide) (by decide) (by decide) (by decide)
    (by decide) hLw hLsep hlong hfit).1⟩

set_option maxRecDepth 10000 in
/-- The fragmentation round trip as literally claimed is false: a line longer
than the atomic budget with a space at the fragment boundary loses that space,
because the reader strips each raw line (hence each fragment) before
reassembly.  Concretely, 4089 copies of `x` followed by `" y"` comes back as
4089 copies of `x` followed by `"y"`. -/
theorem fragRoundtripClaimFalse :
    (IPClient.mk' ['a', 'b', '1', '2'] true ['\x0d'] 500).atomLen
      < (List.replicate 4089 'x' ++ [' ', 'y']).length ∧
    ¬ ((nbRoundtrip (IPClient.mk' ['a', 'b', '1', '2'] true ['\x0d'] 500)
        (List.replicate 4089 'x' ++ [' ', 'y']) '\x0d' (fun _ => false) false).2.2.dispatched
      = [List.replicate 4089 'x' ++ [' ', 'y']]) ∧
    (nbRoundtrip (IPClient.mk' ['a', 'b', '1', '2'] true ['\x0d'] 500)
        (List.replicate 4089 'x' ++ [' ', 'y']) '\x0d' (fun _ => false) false).2.2.dispatched
      = [List.replicate 4089 'x' ++ ['y']] := by
  have hu4 : (['a', 'b', '1', '2'] : List Char).length = 4 := by decide
  have ha : (IPClient.mk' ['a', 'b', '1', '2'] true ['\x0d'] 500).atomLen = 4090 := by
    rw [mk'_atomLen hu4]
    decide
  have hlen : (List.replicate 4089 'x' ++ [' ', 'y']).length = 4091 := by
    rw [List.length_append, List.length_replicate]
    decide
  have hlong : (IPClient.mk' ['a', 'b', '1', '2'] true ['\x0d'] 500).atomLen
      < (List.replicate 4089 'x' ++ [' ', 'y']).length := by
    rw [ha, hlen]
    decide
  have hk : (List.replicate 4089 'x' ++ [' ', 'y']).length
      / (IPClient.mk' ['a', 'b', '1', '2'] true ['\x0d'] 500).atomLen = 1 := by
    rw [hlen, ha]
  have htake : (List.replicate 4089 'x' ++ [' ', 'y']).take 4090
      = List.replicate 4089 'x' ++ [' '] := by
    rw [List.take_append_eq_append_take, List.take_replicate, List.length_replicate]
    norm_num
  have hdrop : (List.replicate 4089 'x' ++ [' ', 'y']).drop 4090 = ['y'] := by
    rw [List.drop_append_eq_append_drop,
      List.drop_of_length_le (by rw [List.length_replicate]; decide), List.length_replicate]
    decide
  have hfrag : (IPClient.mk' ['a', 'b', '1', '2'] true ['\x0d'] 500).fragList
      (List.replicate 4089 'x' ++ [' ', 'y'])
      = [(['a', 'b', '1', '2'] ++ ['#']) ++ (List.replicate 4089 'x' ++ [' ']),
         (['a', 'b', '1', '2'] ++ ['&']) ++ ['y']] := by
    simp only [IPClient.fragList, IPClient.dataPack, Bool.false_eq_true, if_false, if_true,
      ite_true, ite_false, mk'_no,
      mk'_noe (show '#' ∉ (['a', 'b', '1', '2'] : List Char) by decide) true ['\x0d'] 500]
    rw [hk, ha, (show List.range 1 = [0] by decide), List.map_cons, List.map_nil]
    rw [Nat.zero_mul, Nat.one_mul, List.drop_zero, htake, hdrop,
      List.take_of_length_le (by decide)]
    rfl
  have hfree : ∀ e ∈ (IPClient.mk' ['a', 'b', '1', '2'] true ['\x0d'] 500).fragList
      (List.replicate 4089 'x' ++ [' ', 'y']), '\x0d' ∉ e := by
    rw [hfrag]
    intro e he
    rcases List.mem_cons.1 he with rfl | he2
    · intro hmem
      rcases List.mem_append.1 hmem with h1 | h2
      · revert h1; decide
      · rcases List.mem_append.1 h2 with h3 | h4
        · exact absurd (List.eq_of_mem_replicate h3) (by decide)
        · revert h4; decide
    · rcases List.mem_cons.1 he2 with rfl | he3
      · intro hmem
        revert hmem; decide
      · simp at he3
  have splits := nbWriteSplits (IPClient.mk' ['a', 'b', '1', '2'] true ['\x0d'] 500)
    (List.replicate 4089 'x' ++ [' ', 'y']) '\x0d' rfl rfl (by rw [ha]; decide) hlong
    (by rw [hk]; decide) hfree
  have hstrip0 : pyStrip ((['a', 'b', '1', '2'] ++ ['#']) ++ (List.replicate 4089 'x' ++ [' ']))
      = (['a', 'b', '1', '2'] ++ ['#']) ++ List.replicate 4089 'x' := by
    have hassoc : (['a', 'b', '1', '2'] ++ ['#']) ++ (List.replicate 4089 'x' ++ [' '])
        = ((['a', 'b', '1', '2'] ++ ['#']) ++ List.replicate 4089 'x') ++ [' '] :=
      (List.append_assoc _ _ _).symm
    rw [hassoc]
    apply pyStrip_concat_ws
    · intro x hx
      have hh : ((['a', 'b', '1', '2'] ++ ['#']) ++ List.replicate 4089 'x').head?
          = some 'a' := rfl
      rw [hh] at hx
      cases hx
      decide
    · intro x hx
      have hl : ((['a', 'b', '1', '2'] ++ ['#']) ++ List.replicate 4089 'x').getLast?
          = some 'x' := by
        rw [List.getLast?_append, List.getLast?_replicate]
        norm_num
      rw [hl] at hx
      cases hx
      decide
    · decide
  have hstrip1 : pyStrip ((['a', 'b', '1', '2'] ++ ['&']) ++ ['y'])
      = (['a', 'b', '1', '2'] ++ ['&']) ++ ['y'] := by decide
  have hdisp : (nbRoundtrip (IPClient.mk' ['a', 'b', '1', '2'] true ['\x0d'] 500)
      (List.replicate 4089 'x' ++ [' ', 'y']) '\x0d' (fun _ => false) false).2.2.dispatched
      = [List.replicate 4089 'x' ++ ['y']] := by
    rw [nbRoundtrip_reader, splits.1, hfrag, append_pair_nil]
    rw [runReader_cons, readerStep_frame_cont_init (fun _ => false) false (by decide) hstrip0]
    rw [runReader_cons, readerStep_frame_final rfl (by decide) hstrip1
      (show bufGet [(['a', 'b', '1', '2'], List.replicate 4089 'x')] ['a', 'b', '1', '2']
        = some (List.replicate 4089 'x') from rfl)]
    rw [runReader_cons, runReader_nil, readerStep_empty rfl pyStrip_nil,
      idleTick_of_le (by decide)]
    rfl
  refine ⟨hlong, ?_, hdisp⟩
  rw [hdisp]
  intro h
  injection h with h1 _
  have hlen2 := congrArg List.length h1
  simp only [List.length_append, List.length_replicate, List.length_cons,
    List.length_nil] at hlen2
  omega

/-! ### Short (unframed) line round trip -/

theorem foldr_nl_id {sep : List Char} : ∀ s : List Char, '\n' ∉ s →
    s.foldr (fun c acc => if c = '\n' then sep ++ acc else c :: acc) [] = s := by
  intro s
  induction s with
  | nil => intro _; rfl
  | cons c t ih =>
    intro h
    have hc : c ≠ '\n' := fun hh => h (hh ▸ List.mem_cons_self c t)
    have ht : '\n' ∉ t := fun hh => h (List.mem_cons_of_mem c hh)
    simp only [List.foldr_cons, ih ht, if_neg hc]

theorem pyNlTranslate_id {sep s : List Char} (h : '\n' ∉ s) : pyNlTranslate sep s = s := by
  unfold pyNlTranslate
  split
  · rfl
  · exact foldr_nl_id s h

theorem pyNlTranslate_line (sep : Char) (L : List Char) (h : '\n' ∉ L) :
    pyNlTranslate [sep] (L ++ [sep]) = L ++ [sep] := by
  by_cases hsep : sep = '\n'
  · subst hsep
    unfold pyNlTranslate
    rw [if_pos (Or.inr rfl)]
  · apply pyNlTranslate_id
    intro hmem
    rcases List.mem_append.1 hmem with h1 | h2
    · exact h h1
    · simp at h2
      exact hsep h2.symm

theorem runReader_plain_idle (f : List Char → Bool) (eof : Bool) (L : List Char) (ch : Char)
    (hstrip : pyStrip L = L) (hne : L ≠ []) (h4 : L[4]? = some ch)
    (hch1 : ch ≠ '#') (hch2 : ch ≠ '&') :
    (runReader f eof ReaderState.init [L, []]).dispatched = [L] ∧
    (runReader f eof ReaderState.init [L, []]).stopped = false ∧
    (runReader f eof ReaderState.init [L, []]).buf = [] := by
  rw [runReader_cons, readerStep_plain rfl hstrip hne h4 hch1 hch2]
  rw [runReader_cons, runReader_nil, readerStep_empty rfl pyStrip_nil,
    idleTick_of_le (by by_cases hf : f L = true <;> simp [hf])]
  exact ⟨rfl, rfl, rfl⟩

theorem nbShortPipeline (c : IPClient) (L : List Char) (sep : Char) (f : List Char → Bool)
    (eof : Bool) (ch : Char)
    (hls : c.linestep = [sep]) (hc0 : c.cache = []) (hm : 0 < c.cacheMaxlen)
    (hshort : ¬ (c.atomLen < L.length))
    (hstrip : pyStrip L = L) (hne : L ≠ []) (h4 : L[4]? = some ch)
    (hch1 : ch ≠ '#') (hch2 : ch ≠ '&') (hLsep : sep ∉ L) :
    (nbRoundtrip c L sep f eof).2.2.dispatched = [L] ∧
    (nbRoundtrip c L sep f eof).2.2.stopped = false ∧
    (nbRoundtrip c L sep f eof).1.cache = [] := by
  have hcache : c.nbCache L = [L] := by
    unfold IPClient.nbCache
    rw [hc0]
    rw [if_neg (show ¬ (([] : List (List Char)).length = c.cacheMaxlen) by
      simp only [List.length_nil]; omega)]
    rw [if_neg hshort, dequeAppend_of_lt (by simp only [List.length_nil]; omega)]
    rfl
  have key := drain_full [sep] [L] none []
  have hfreeL : ∀ e ∈ [L], sep ∉ e := by
    intro e he
    rw [List.mem_singleton] at he
    subst he
    exact hLsep
  have hwire : ((c.writeNonblock L (fullDrainOutcomes c.linestep (c.nbCache L))).2).wire
      = L ++ [sep] := by
    rw [writeNonblock_snd, hls, hcache, key.2.1]
    simp
  have hsplit : splitSep sep
      ((c.writeNonblock L (fullDrainOutcomes c.linestep (c.nbCache L))).2.wire) = [L, []] := by
    rw [hwire]
    have : L ++ [sep] = L ++ sep :: [] := rfl
    rw [this, splitSep_entry sep L [] hLsep]
    rfl
  have hr := runReader_plain_idle f eof L ch hstrip hne h4 hch1 hch2
  refine ⟨?_, ?_, ?_⟩
  · rw [nbRoundtrip_reader, hsplit]
    exact hr.1
  · rw [nbRoundtrip_reader, hsplit]
    exact hr.2.1
  · rw [nbRoundtrip_client, writeNonblock_fst, hls, hcache]
    show ((fullDrainOutcomes [sep] [L]).foldl (drainStep [sep])
      { cache := [L], fd := none, wire := [], broke := false, escaped := false } :
        DrainSt).cache = []
    exact key.1

/-- Claim C2 (amended): for lines `L` with `5 ≤ len(L) ≤ atomic_budget` whose
fifth character is neither `'#'` nor `'&'`, which are equal to their own strip
and contain neither the terminator nor a line feed, writing `L` in either mode
and draining fully makes the reader invoke the executor with exactly `L`.
(The original claim over all `L ≤ atomic_budget` is false: a line shorter than
5 characters makes `line[4]` raise IndexError in the reader, which is caught,
and the line is never dispatched — see the counterexample; stripped whitespace
and a marker character in fifth position also break it.) -/
theorem shortRoundtripAmended (u L : List Char) (sep : Char) (m : Nat)
    (f : List Char → Bool) (eof : Bool) (ch : Char)
    (hm : 0 < m)
    (hstrip : pyStrip L = L) (hne : L ≠ []) (h4 : L[4]? = some ch)
    (hch1 : ch ≠ '#') (hch2 : ch ≠ '&') (hLsep : sep ∉ L) (hLnl : '\n' ∉ L)
    (hshort : L.length ≤ (IPClient.mk' u true [sep] m).atomLen) :
    (blockRoundtrip (IPClient.mk' u false [sep] m) L sep f eof).dispatched = [L] ∧
    (blockRoundtrip (IPClient.mk' u false [sep] m) L sep f eof).stopped = false ∧
    (nbRoundtrip (IPClient.mk' u true [sep] m) L sep f eof).2.2.dispatched = [L] ∧
    (nbRoundtrip (IPClient.mk' u true [sep] m) L sep f eof).2.2.stopped = false ∧
    (nbRoundtrip (IPClient.mk' u true [sep] m) L sep f eof).1.cache = [] := by
  have hblockWire : (IPClient.mk' u false [sep] m).writeBlocking L = L ++ [sep] := by
    unfold IPClient.writeBlocking
    exact pyNlTranslate_line sep L hLnl
  have hsplit : splitSep sep ((IPClient.mk' u false [sep] m).writeBlocking L) = [L, []] := by
    rw [hblockWire]
    have : L ++ [sep] = L ++ sep :: [] := rfl
    rw [this, splitSep_entry sep L [] hLsep]
    rfl
  have hr := runReader_plain_idle f eof L ch hstrip hne h4 hch1 hch2
  have hnb := nbShortPipeline (IPClient.mk' u true [sep] m) L sep f eof ch rfl rfl hm
    (by omega) hstrip hne h4 hch1 hch2 hLsep
  refine ⟨?_, ?_, hnb.1, hnb.2.1, hnb.2.2⟩
  · unfold blockRoundtrip
    rw [hsplit]
    exact hr.1
  · unfold blockRoundtrip
    rw [hsplit]
    exact hr.2.1

theorem shortRoundtripAmendedWitness :
    pyStrip ['h', 'e', 'l', 'l', 'o', '!'] = ['h', 'e', 'l', 'l', 'o', '!'] ∧
    (blockRoundtrip (IPClient.mk' ['a', 'b', '1', '2'] false ['\x0d'] 500)
      ['h', 'e', 'l', 'l', 'o', '!'] '\x0d' (fun _ => false) false).dispatched
      = [['h', 'e', 'l', 'l', 'o', '!']] ∧
    (nbRoundtrip (IPClient.mk' ['a', 'b', '1', '2'] true ['\x0d'] 500)
      ['h', 'e', 'l', 'l', 'o', '!'] '\x0d' (fun _ => false) false).2.2.dispatched
      = [['h', 'e', 'l', 'l', 'o', '!']] := by
  have h := shortRoundtripAmended ['a', 'b', '1', '2'] ['h', 'e', 'l', 'l', 'o', '!'] '\x0d'
    500 (fun _ => false) false 'o' (by decide) (by decide) (by decide) (by decide)
    (by decide) (by decide) (by decide) (by decide)
    (by rw [mk'_atomLen (by decide)]; decide)
  exact ⟨by decide, h.1, h.2.2.1⟩

/-- The round trip as literally claimed is false for short lines: the 2-byte
line `"ab"` fits the atomic budget, but the reader evaluates `line[4]` without
a length check, raises IndexError (caught), and never invokes the executor, in
either write mode. -/
theorem shortRoundtripClaimFalse :
    (['a', 'b'] : List Char).length
      ≤ (IPClient.mk' ['a', 'b', '1', '2'] false ['\x0d'] 500).atomLen ∧
    (blockRoundtrip (IPClient.mk' ['a', 'b', '1', '2'] false ['\x0d'] 500) ['a', 'b']
      '\x0d' (fun _ => false) false).dispatched = [] ∧
    (nbRoundtrip (IPClient.mk' ['a', 'b', '1', '2'] true ['\x0d'] 500) ['a', 'b']
      '\x0d' (fun _ => false) false).2.2.dispatched = [] := by
  decide


/-! ### Idle shutdown -/

theorem readerStep_noflag_stopped (f : List Char → Bool) (s : ReaderState) (raw : List Char)
    (hs : s.stopped = false) : (readerStep f false s raw).stopped = false := by
  obtain ⟨sf, b, d, st⟩ := s
  simp only [ReaderState.stopped] at hs
  subst hs
  unfold readerStep idleTick
  simp only [Bool.false_eq_true, and_false, if_false]
  split
  · rfl
  · split
    · rfl
    · split
      · rfl
      · split <;> split <;>
          first
          | rfl
          | (cases hbg : bufGet b (List.take 4 (pyStrip raw)) <;> rfl)

theorem runReader_noflag_never_stops (f : List Char → Bool) :
    ∀ (raws : List (List Char)) (s : ReaderState), s.stopped = false →
      (runReader f false s raws).stopped = false := by
  intro raws
  induction raws with
  | nil => intro s hs; exact hs
  | cons raw rest ih =>
    intro s hs
    rw [runReader_cons]
    exact ih _ (readerStep_noflag_stopped f s raw hs)

/-- Claim C3 (amended): with the Termination Flag set, the reader loop
terminates after 4 consecutive empty reads (the code breaks only once the
idle counter exceeds 3), not after 3; with the flag set, 3 consecutive empty
reads leave the loop running; and with the flag unset, no sequence of reads
terminates the loop.  (The original claim that 3 consecutive empty reads
suffice is false — see the counterexample.) -/
theorem idleShutdownAmended (f : List Char → Bool) (s : ReaderState)
    (hs : s.stopped = false) (hsf : s.saltfish = 0) :
    (runReader f true s [[], [], [], []]).stopped = true ∧
    (runReader f true s [[], [], []]).stopped = false ∧
    (∀ raws : List (List Char), (runReader f false s raws).stopped = false) := by
  obtain ⟨sf, b, d, st⟩ := s
  simp only [ReaderState.stopped] at hs
  simp only [ReaderState.saltfish] at hsf
  subst hs
  subst hsf
  exact ⟨rfl, rfl, fun raws => runReader_noflag_never_stops f raws _ rfl⟩

theorem idleShutdownAmendedWitness :
    ReaderState.init.stopped = false ∧
    (runReader (fun _ => false) true ReaderState.init [[], [], [], []]).stopped = true := by
  exact ⟨rfl, (idleShutdownAmended (fun _ => false) ReaderState.init rfl rfl).1⟩

/-- The idle-shutdown claim as stated is false: with the Termination Flag set,
3 consecutive empty reads do not terminate the loop (the code requires the
idle counter to exceed 3, i.e. a 4th empty read). -/
theorem idleShutdownClaimFalse :
    (runReader (fun _ => false) true ReaderState.init [[], [], []]).stopped = false ∧
    (runReader (fun _ => false) true ReaderState.init [[], [], [], []]).stopped = true := by
  decide

/-! ### Partial writes in the drain loop -/

theorem drainStep_wrote_full (sep e : List Char) (rest : List (List Char))
    (fd0 : Option Bool) (w0 : List Char) :
    drainStep sep { cache := e :: rest, fd := fd0, wire := w0, broke := false, escaped := false }
        (.wrote (e ++ sep).length) =
      { cache := rest, fd := some false, wire := w0 ++ (e ++ sep), broke := false,
        escaped := false } := by
  simp [drainStep]

/-- Claim C5 (amended): when a drain-loop write transmits only `n` bytes with
`0 < n < len(entry + terminator)`, the head cache entry is replaced by the
unwritten remainder of `entry + terminator` (so the stored remainder includes
the terminator), the loop does not break, and draining continues immediately
within the same call: a following full write pops the remainder (appending a
further terminator to it on the wire).  Draining stops only when an open or a
write raises.  (The original claim — remainder of the entry alone, and
draining stops until the next `write()`/`flush()` — is contradicted on both
points by the counterexample.) -/
theorem drainRemainderAmended (sep e : List Char) (rest : List (List Char))
    (fd0 : Option Bool) (w0 : List Char) (n : Nat)
    (h1 : 0 < n) (h2 : n < (e ++ sep).length) :
    drainStep sep { cache := e :: rest, fd := fd0, wire := w0, broke := false, escaped := false }
        (.wrote n) =
      { cache := (e ++ sep).drop n :: rest, fd := some false,
        wire := w0 ++ (e ++ sep).take n, broke := false, escaped := false } ∧
    ([WOutcome.wrote n, WOutcome.wrote ((e ++ sep).drop n ++ sep).length].foldl
        (drainStep sep)
        { cache := e :: rest, fd := fd0, wire := w0, broke := false, escaped := false } :
      DrainSt).cache = rest := by
  have hstep : drainStep sep
      { cache := e :: rest, fd := fd0, wire := w0, broke := false, escaped := false }
      (.wrote n) =
      { cache := (e ++ sep).drop n :: rest, fd := some false,
        wire := w0 ++ (e ++ sep).take n, broke := false, escaped := false } := by
    unfold drainStep
    simp only [Bool.false_eq_true, or_self, if_false]
    rw [show min n (e ++ sep).length = n from min_eq_left (le_of_lt h2)]
    rw [if_neg (Nat.ne_of_lt h2)]
  refine ⟨hstep, ?_⟩
  rw [List.foldl_cons, hstep, List.foldl_cons,
    drainStep_wrote_full sep ((e ++ sep).drop n) rest (some false)
      (w0 ++ (e ++ sep).take n), List.foldl_nil]

theorem drainRemainderAmendedWitness :
    ((0 : Nat) < 2 ∧ 2 < ((['a', 'b', 'c'] : List Char) ++ ['\x0d']).length) ∧
    drainStep ['\x0d']
        { cache := [['a', 'b', 'c']], fd := none, wire := [], broke := false, escaped := false }
        (.wrote 2) =
      { cache := [(['a', 'b', 'c'] ++ ['\x0d']).drop 2], fd := some false,
        wire := [] ++ (['a', 'b', 'c'] ++ ['\x0d']).take 2, broke := false,
        escaped := false } :=
  ⟨⟨by decide, by decide⟩,
    (drainRemainderAmended ['\x0d'] ['a', 'b', 'c'] [] none [] 2 (by decide) (by decide)).1⟩

/-- The partial-write claim as stated is false on two points, shown by one
`write()` call on the 3-byte line `"abc"` whose first drain iteration writes 2
of 4 bytes: the head entry becomes `"c\r"` (remainder of entry+terminator, not
`"c"`), and draining does not stop — the same call's next iteration writes the
remainder (plus another terminator) and empties the cache, so the wire carries
`"abc\r\r"`. -/
theorem drainStopClaimFalse :
    ((IPClient.mk' ['a', 'b', '1', '2'] true ['\x0d'] 500).writeNonblock ['a', 'b', 'c']
      [.wrote 2]).1.cache = [['c', '\x0d']] ∧
    ((IPClient.mk' ['a', 'b', '1', '2'] true ['\x0d'] 500).writeNonblock ['a', 'b', 'c']
      [.wrote 2, .wrote 3]).1.cache = [] ∧
    ((IPClient.mk' ['a', 'b', '1', '2'] true ['\x0d'] 500).writeNonblock ['a', 'b', 'c']
      [.wrote 2, .wrote 3]).2.broke = false ∧
    ((IPClient.mk' ['a', 'b', '1', '2'] true ['\x0d'] 500).writeNonblock ['a', 'b', 'c']
      [.wrote 2, .wrote 3]).2.wire = ['a', 'b', 'c', '\x0d', '\x0d'] := by
  decide

/-! ### Uncaught double close in the nonblocking writer -/

/-- Claim C6 is contradicted by the code.  Scenario: a first `write("x")` with
no reader caches the line (`os.open` raises ENXIO, `fd` is still `None`, so
the handler skips the close).  A second `write("y")` finds a reader, drains
`"x"` in full (opening and closing a descriptor, the `fd` variable keeping its
number), and then the reader disconnects: the next `os.open` raises, the
`except` handler sees the stale truthy `fd` and calls `os.close` on the
already-closed descriptor, and that `os.close` raises OSError (EBADF) inside
the handler — propagating out of `write()` to the caller. -/
theorem nonblockDoubleCloseBug :
    ((IPClient.mk' ['a', 'b', '1', '2'] true ['\x0d'] 500).writeNonblock ['x']
      [.openFail]).1.cache = [['x']] ∧
    ((((IPClient.mk' ['a', 'b', '1', '2'] true ['\x0d'] 500).writeNonblock ['x']
      [.openFail]).1).writeNonblock ['y'] [.wrote 2, .openFail]).2.escaped = true := by
  decide

/-! ### The atomic budget versus the queried pipe size -/

/-- The claim that `atomic_budget` is computed from the queried pipe size is
false: with `/proc/sys/fs/pipe-max-size` reporting 1048576 (a typical Linux
value), `pipe_max_size` returns 1048576, yet the budget is computed from the
class constant `ATOMIC_MAX = 4096` and equals 4090. -/
theorem atomicBudgetClaimFalse :
    pipe_max_size { procPipeMaxSize := some 1048576, isDarwin := false } = 1048576 ∧
    (IPClient.mk' ['a', 'b', '1', '2'] false ['\x0d'] 500).atomLen = 4090 ∧
    ¬ ((IPClient.mk' ['a', 'b', '1', '2'] false ['\x0d'] 500).atomLen
      = pipe_max_size { procPipeMaxSize := some 1048576, isDarwin := false }
        - (IPClient.mk' ['a', 'b', '1', '2'] false ['\x0d'] 500).no.length
        - (['\x0d'] : List Char).length) := by
  decide

/-- Claim C7 (amended): `__init__` computes
`atomic_budget = ATOMIC_MAX - len(correlation_id) - len(terminator)` from the
fixed class constant `ATOMIC_MAX = 4096` (4090 for the default single-byte
terminator), independent of the environment; the OS pipe-buffer-size query
(`pipe_max_size`: `/proc/sys/fs/pipe-max-size` where available, else 65536 on
darwin, else 4096) feeds only the oversized-write warning `PIPE_MAX`, not the
budget. -/
theorem atomicBudgetAmended (u ls : List Char) (nb : Bool) (m : Nat)
    (hu : u.length = 4) (hls : ls.length = 1) :
    (IPClient.mk' u nb ls m).atomLen
      = IPClient.ATOMIC_MAX - (IPClient.mk' u nb ls m).no.length - ls.length ∧
    (IPClient.mk' u nb ls m).atomLen = 4090 ∧
    (∀ v : Nat, ∀ d : Bool,
      pipe_max_size { procPipeMaxSize := some v, isDarwin := d } = v) ∧
    pipe_max_size { procPipeMaxSize := none, isDarwin := true } = 65536 ∧
    pipe_max_size { procPipeMaxSize := none, isDarwin := false } = 4096 := by
  refine ⟨rfl, ?_, fun v d => rfl, rfl, rfl⟩
  rw [mk'_atomLen hu, hls]

theorem atomicBudgetAmendedWitness :
    ((['a', 'b', '1', '2'] : List Char).length = 4 ∧ (['\x0d'] : List Char).length = 1) ∧
    (IPClient.mk' ['a', 'b', '1', '2'] false ['\x0d'] 500).atomLen = 4090 :=
  ⟨⟨by decide, by decide⟩,
    (atomicBudgetAmended ['a', 'b', '1', '2'] ['\x0d'] false 500 (by decide) (by decide)).2.1⟩

/-! ### Channel creation over an existing entry -/

/-- The claim that channel creation fails when the path exists as a regular
file is false: `ensure_fifo` removes the file and then creates the fifo,
succeeding. -/
theorem fifoCreateClaimFalse :
    ensure_fifo (some FsEntry.file) = Except.ok (some FsEntry.fifo) := rfl

/-- Claim C9 (amended): whatever exists at the channel path — a regular file,
a stale fifo, or nothing — `ensure_fifo` removes it and creates a fresh named
pipe, succeeding; the one failing case of the remove-then-create contract is a
directory, on which `os.remove` raises. -/
theorem ensureFifoAmended (st : Option FsEntry) (h : st ≠ some FsEntry.dir) :
    ensure_fifo st = Except.ok (some FsEntry.fifo) := by
  cases st with
  | none => rfl
  | some e =>
    cases e with
    | file => rfl
    | fifo => rfl
    | dir => exact absurd rfl h

theorem ensureFifoAmendedWitness :
    (some FsEntry.file ≠ some FsEntry.dir) ∧
    ensure_fifo (some FsEntry.file) = Except.ok (some FsEntry.fifo) :=
  ⟨by decide, ensureFifoAmended (some FsEntry.file) (by decide)⟩

/-! ### Executor fault isolation -/

/-- Claim C8 (confirmed): the executor invocation is wrapped in the loop's
try/except, so whatever the executor does on line N — `f` is arbitrary here,
including an executor that raises on the first line — both plain lines are
dispatched in order and the loop is not terminated; moreover no iteration that
reads a nonempty line can ever break the loop, because a caught exception only
bumps the freshly-reset idle counter to 1. -/
theorem executorFaultIsolation (f : List Char → Bool) (eof : Bool) (s : ReaderState)
    (L1 L2 : List Char) (c1 c2 : Char) (hs : s.stopped = false)
    (h1s : pyStrip L1 = L1) (h1n : L1 ≠ []) (h14 : L1[4]? = some c1)
    (h1a : c1 ≠ '#') (h1b : c1 ≠ '&')
    (h2s : pyStrip L2 = L2) (h2n : L2 ≠ []) (h24 : L2[4]? = some c2)
    (h2a : c2 ≠ '#') (h2b : c2 ≠ '&') :
    (runReader f eof s [L1, L2]).dispatched = s.dispatched ++ [L1, L2] ∧
    (runReader f eof s [L1, L2]).stopped = false ∧
    (∀ raw, pyStrip raw ≠ [] → (readerStep f eof s raw).stopped = false) := by
  refine ⟨?_, ?_, ?_⟩
  · rw [runReader_cons, readerStep_plain hs h1s h1n h14 h1a h1b, runReader_cons,
      runReader_nil, readerStep_plain rfl h2s h2n h24 h2a h2b]
    simp
  · rw [runReader_cons, readerStep_plain hs h1s h1n h14 h1a h1b, runReader_cons,
      runReader_nil, readerStep_plain rfl h2s h2n h24 h2a h2b]
  · intro raw hraw
    obtain ⟨sf, b, d, st⟩ := s
    simp only [ReaderState.stopped] at hs
    subst hs
    unfold readerStep idleTick
    simp only [Bool.false_eq_true, if_false]
    rw [if_neg hraw]
    split
    · rfl
    · split
      · rfl
      · split <;> split <;>
          first
          | rfl
          | (cases hbg : bufGet b (List.take 4 (pyStrip raw)) <;> rfl)

theorem executorFaultIsolationWitness :
    ReaderState.init.stopped = false ∧
    (runReader (fun l => l == ['b', 'o', 'o', 'm', '!']) false ReaderState.init
      [['b', 'o', 'o', 'm', '!'], ['h', 'e', 'l', 'l', 'o']]).dispatched
      = [['b', 'o', 'o', 'm', '!'], ['h', 'e', 'l', 'l', 'o']] := by
  have h := executorFaultIsolation (fun l => l == ['b', 'o', 'o', 'm', '!']) false
    ReaderState.init ['b', 'o', 'o', 'm', '!'] ['h', 'e', 'l', 'l', 'o'] '!' 'o' rfl
    (by decide) (by decide) (by decide) (by decide) (by decide)
    (by decide) (by decide) (by decide) (by decide) (by decide)
  exact ⟨rfl, by rw [h.1]; rfl⟩

/-! ### Whitespace of dispatched lines -/

theorem bufGet_mem : ∀ (b : List (List Char × List Char)) (k v : List Char),
    bufGet b k = some v → ∃ k', (k', v) ∈ b := by
  intro b
  induction b with
  | nil => intro k v h; simp [bufGet] at h
  | cons kv rest ih =>
    intro k v h
    unfold bufGet at h
    by_cases hk : kv.1 = k
    · rw [if_pos hk] at h
      exact ⟨kv.1, by simp at h; simp [← h]⟩
    · rw [if_neg hk] at h
      obtain ⟨k', hk'⟩ := ih k v h
      exact ⟨k', List.mem_cons_of_mem kv hk'⟩

theorem bufSet_mem : ∀ (b : List (List Char × List Char)) (k v : List Char)
    (kv : List Char × List Char), kv ∈ bufSet b k v → kv ∈ b ∨ kv = (k, v) := by
  intro b
  induction b with
  | nil => intro k v kv h; simp [bufSet] at h; exact Or.inr h
  | cons kv0 rest ih =>
    intro k v kv h
    unfold bufSet at h
    by_cases hk : kv0.1 = k
    · rw [if_pos hk] at h
      rcases List.mem_cons.1 h with h1 | h2
      · exact Or.inr h1
      · exact Or.inl (List.mem_cons_of_mem kv0 h2)
    · rw [if_neg hk] at h
      rcases List.mem_cons.1 h with h1 | h2
      · exact Or.inl (h1 ▸ List.mem_cons_self kv0 rest)
      · rcases ih k v kv h2 with h3 | h4
        · exact Or.inl (List.mem_cons_of_mem kv0 h3)
        · exact Or.inr h4

theorem bufDel_mem : ∀ (b : List (List Char × List Char)) (k : List Char)
    (kv : List Char × List Char), kv ∈ bufDel b k → kv ∈ b := by
  intro b
  induction b with
  | nil => intro k kv h; simp [bufDel] at h
  | cons kv0 rest ih =>
    intro k kv h
    unfold bufDel at h
    by_cases hk : kv0.1 = k
    · rw [if_pos hk] at h
      exact List.mem_cons_of_mem kv0 h
    · rw [if_neg hk] at h
      rcases List.mem_cons.1 h with h1 | h2
      · exact h1 ▸ List.mem_cons_self kv0 rest
      · exact List.mem_cons_of_mem kv0 (ih k kv h2)

theorem readerStep_noTrailWS (f : List Char → Bool) (eof : Bool) (s : ReaderState)
    (raw : List Char)
    (hd : ∀ x ∈ s.dispatched, noTrailWS x) (hb : ∀ kv ∈ s.buf, noTrailWS kv.2) :
    (∀ x ∈ (readerStep f eof s raw).dispatched, noTrailWS x) ∧
    (∀ kv ∈ (readerStep f eof s raw).buf, noTrailWS kv.2) := by
  have hpay : noTrailWS ((pyStrip raw).drop 5) :=
    noTrailWS_drop (noTrailWS_pyStrip raw) 5
  by_cases hstop : s.stopped = true
  · rw [readerStep_stopped hstop]
    exact ⟨hd, hb⟩
  have hs : s.stopped = false := eq_false_of_ne_true hstop
  by_cases hline : pyStrip raw = []
  · rw [readerStep_empty hs hline]
    unfold idleTick
    split
    · exact ⟨hd, hb⟩
    · exact ⟨hd, hb⟩
  cases h4 : (pyStrip raw)[4]? with
  | none =>
    rw [readerStep_shortline hs rfl hline h4]
    exact ⟨hd, hb⟩
  | some ch =>
    have hlen5 : 5 ≤ (pyStrip raw).length := by
      by_contra hlt
      rw [List.getElem?_eq_none (by omega)] at h4
      cases h4
    have hdecomp : pyStrip raw = ((pyStrip raw).take 4 ++ [ch]) ++ (pyStrip raw).drop 5 := by
      conv_lhs => rw [← List.take_append_drop 5 (pyStrip raw)]
      congr 1
      rw [List.take_succ, h4]
      rfl
    have hu : ((pyStrip raw).take 4).length = 4 := by
      rw [List.length_take]
      omega
    by_cases hch1 : ch = '#'
    · subst hch1
      rw [readerStep_frame_cont hs hu hdecomp]
      refine ⟨hd, ?_⟩
      intro kv hkv
      rcases bufSet_mem _ _ _ kv hkv with h1 | h2
      · exact hb kv h1
      · subst h2
        show noTrailWS (match bufGet s.buf ((pyStrip raw).take 4) with
          | some acc => acc ++ (pyStrip raw).drop 5
          | none => (pyStrip raw).drop 5)
        cases hg : bufGet s.buf ((pyStrip raw).take 4) with
        | none => exact hpay
        | some acc =>
          obtain ⟨k', hk'⟩ := bufGet_mem _ _ _ hg
          exact noTrailWS_append (hb (k', acc) hk') hpay
    · by_cases hch2 : ch = '&'
      · subst hch2
        cases hg : bufGet s.buf ((pyStrip raw).take 4) with
        | none =>
          rw [readerStep_frame_final_nobuf hs hu hdecomp hg]
          refine ⟨?_, hb⟩
          intro x hx
          rcases List.mem_append.1 hx with h1 | h2
          · exact hd x h1
          · rw [List.mem_singleton] at h2
            exact h2 ▸ hpay
        | some acc =>
          rw [readerStep_frame_final hs hu hdecomp hg]
          obtain ⟨k', hk'⟩ := bufGet_mem _ _ _ hg
          refine ⟨?_, fun kv hkv => hb kv (bufDel_mem _ _ kv hkv)⟩
          intro x hx
          rcases List.mem_append.1 hx with h1 | h2
          · exact hd x h1
          · rw [List.mem_singleton] at h2
            exact h2 ▸ noTrailWS_append (hb (k', acc) hk') hpay
      · rw [readerStep_plain hs rfl hline h4 hch1 hch2]
        refine ⟨?_, hb⟩
        intro x hx
        rcases List.mem_append.1 hx with h1 | h2
        · exact hd x h1
        · rw [List.mem_singleton] at h2
          exact h2 ▸ noTrailWS_pyStrip raw

/-- Claim C10 (amended): the reader strips each raw line immediately after
reading it, and consequently no line passed to the executor — and no value
held in the reassembly buffer — has trailing whitespace.  (The original
claim's "no leading whitespace" half is false: a fragment payload begins after
the 5-character frame, in the middle of the stripped line, so leading
whitespace there survives into the reassembly buffer and into the reassembled
dispatched line — see the counterexample.) -/
theorem dispatchNoTrailingWSAmended (f : List Char → Bool) (eof : Bool)
    (raws : List (List Char)) :
    (∀ x ∈ (runReader f eof ReaderState.init raws).dispatched, noTrailWS x) ∧
    (∀ kv ∈ (runReader f eof ReaderState.init raws).buf, noTrailWS kv.2) := by
  suffices h : ∀ (s : ReaderState), (∀ x ∈ s.dispatched, noTrailWS x) →
      (∀ kv ∈ s.buf, noTrailWS kv.2) →
      (∀ x ∈ (runReader f eof s raws).dispatched, noTrailWS x) ∧
      (∀ kv ∈ (runReader f eof s raws).buf, noTrailWS kv.2) by
    exact h ReaderState.init (by intro x hx; simp [ReaderState.init] at hx)
      (by intro kv hkv; simp [ReaderState.init] at hkv)
  induction raws with
  | nil => intro s h1 h2; exact ⟨h1, h2⟩
  | cons raw rest ih =>
    intro s h1 h2
    rw [runReader_cons]
    have hstep := readerStep_noTrailWS f eof s raw h1 h2
    exact ih _ hstep.1 hstep.2

theorem dispatchNoTrailingWSAmendedWitness :
    [' ', 'x'] ∈ (runReader (fun _ => false) false ReaderState.init
      [['a', 'b', '1', '2', '&', ' ', 'x']]).dispatched ∧
    noTrailWS [' ', 'x'] :=
  ⟨by decide,
    (dispatchNoTrailingWSAmended (fun _ => false) false
      [['a', 'b', '1', '2', '&', ' ', 'x']]).1 [' ', 'x'] (by decide)⟩

/-- The implicit stripping claim is false on its "no leading whitespace" half:
the raw line `"ab12& x"` survives `strip()` unchanged (its ends are
non-whitespace), the reader treats it as a FINAL fragment, and dispatches the
payload `" x"`, which begins with a space.  The same holds for reassembled
fragment payloads entering the buffer. -/
theorem strippedDispatchClaimFalse :
    (runReader (fun _ => false) false ReaderState.init
      [['a', 'b', '1', '2', '&', ' ', 'x']]).dispatched = [[' ', 'x']] ∧
    pyIsSpace ' ' = true := by
  decide

/-! ### The 150-line burst scenario -/

theorem wStep_cliWith (x : List (List Char)) (l : List Char) :
    wStep (cliWith x) l = cliWith ((wStep (cliWith x) l).cache) := rfl

theorem foldl_wStep_cliWith : ∀ (lines : List (List Char)) (x : List (List Char)),
    lines.foldl wStep (cliWith x) = cliWith ((lines.foldl wStep (cliWith x)).cache) := by
  intro lines
  induction lines with
  | nil => intro x; rfl
  | cons l ls ih =>
    intro x
    rw [List.foldl_cons, wStep_cliWith x l]
    exact ih _

set_option maxRecDepth 200000 in
/-- Claim C4 is half right and half contradicted by the code.  Writing 150
distinct one-byte lines (code points 200..349) through nonblocking `write()`
with `cache_capacity = 100` and no reader attached leaves exactly 100 cache
entries: every second of the first 100 lines, then lines 101..150, in relative
order — the eviction half of the claim holds.  But when the cache is then
fully drained and the reader runs, it dispatches nothing: every 1-byte line
makes `line[4]` raise IndexError (caught, line dropped), so the claimed
dispatch of all 100 lines never happens. -/
theorem burstEvictionDispatchBug :
    (((burstLines 200 150).foldl wStep (cliWith [])).cache).length = 100 ∧
    ((burstLines 200 150).foldl wStep (cliWith [])).cache = burstSurvivors ∧
    ((fullDrainOutcomes ['\x0d'] burstSurvivors).foldl (drainStep ['\x0d'])
      { cache := burstSurvivors, fd := none, wire := [], broke := false,
        escaped := false } : DrainSt).cache = [] ∧
    (runReader (fun _ => false) false ReaderState.init (splitSep '\x0d'
      ((fullDrainOutcomes ['\x0d'] burstSurvivors).foldl (drainStep ['\x0d'])
        { cache := burstSurvivors, fd := none, wire := [], broke := false,
          escaped := false } : DrainSt).wire)).dispatched = [] := by
  have hsplit : burstLines 200 150 = burstLines 200 100 ++ burstLines 300 50 := by decide
  have hA : ((burstLines 200 100).foldl wStep (cliWith [])).cache
      = (List.range' 200 100).map (fun n => [Char.ofNat n]) := by decide
  have hAC : (burstLines 200 100).foldl wStep (cliWith [])
      = cliWith ((List.range' 200 100).map (fun n => [Char.ofNat n])) := by
    have h := foldl_wStep_cliWith (burstLines 200 100) []
    rw [hA] at h
    exact h
  have hB : ((burstLines 300 50).foldl wStep
      (cliWith ((List.range' 200 100).map (fun n => [Char.ofNat n])))).cache
      = burstSurvivors := by decide
  have hfull : ((burstLines 200 150).foldl wStep (cliWith [])).cache = burstSurvivors := by
    rw [hsplit, List.foldl_append, hAC, hB]
  refine ⟨?_, hfull, ?_, ?_⟩
  · rw [hfull]
    decide
  · decide
  · decide
